import Mathlib

/-!
Verification development for the election-scoring engine of the
`voting-visualization` repository.

The engine lives in `src/app/components/votingMethods.ts` and
`src/app/components/ElectionUtils.ts`.  JavaScript numbers are modelled as
real numbers (`ℝ`); `Math.sqrt` is `Real.sqrt`, `Math.cos` is `Real.cos`,
`Math.PI` is `Real.pi`.  A JavaScript runtime failure (reading a property of
`undefined`, as in `prefs[0].id` on an empty array) is modelled as
`JsError.typeError`; the explicit `throw new Error('No candidates provided')`
in `runElection` is modelled as `JsError.invalidInput` (the spec's
`InvalidInput` condition).  JavaScript `Record`s and `Map`s are modelled as
association lists in insertion order, with `Map.set`/property assignment
updating an existing key in place (`mapSet`), matching the iteration-order
semantics used by `Object.entries` and `Map.prototype.entries`.
-/

namespace VotingViz

/-- Candidate record (`types.ts`): identity `id`, position `(x, y)`, and
display metadata `color`, `name` that scoring never reads. -/
structure Candidate where
  id : String
  x : ℝ
  y : ℝ
  color : String
  name : String

/-- Error conditions of the engine.  `invalidInput` is the explicit
`throw new Error('No candidates provided')`; `typeError` is the implicit
JavaScript `TypeError` raised by reading `.id` of `undefined`. -/
inductive JsError where
  | invalidInput
  | typeError
deriving DecidableEq

/-- Entry of a voter's preference ranking (`votingMethods.ts`,
`getVoterPreference`): a candidate id together with its distance to the
voter. -/
structure IdDist where
  id : String
  dist : ℝ

/-- distance (ElectionUtils.ts line 7 and votingMethods.ts line 21):
Euclidean distance `Math.sqrt((x2 - x1) ** 2 + (y2 - y1) ** 2)`. -/
noncomputable def distance (x1 y1 x2 y2 : ℝ) : ℝ :=
  Real.sqrt ((x2 - x1) ^ 2 + (y2 - y1) ^ 2)

/-- VOTER_RADIUS (ElectionUtils.ts line 3). -/
noncomputable def VOTER_RADIUS : ℝ := 0.15

/-- DEFAULT_APPROVAL_THRESHOLD (ElectionUtils.ts line 4). -/
noncomputable def DEFAULT_APPROVAL_THRESHOLD : ℝ := 0.3

/-- getWeight (ElectionUtils.ts lines 11-17): 0 when `dist >= radius`,
otherwise `0.5 * (1 + Math.cos(Math.PI * dist / radius))`. -/
noncomputable def getWeight (dist radius : ℝ) : ℝ :=
  if dist ≥ radius then 0
  else 0.5 * (1 + Real.cos (Real.pi * dist / radius))

/-- One insertion step of the stable ascending-by-`dist` sort used to model
`Array.prototype.sort((a, b) => a.dist - b.dist)`.  The inserted element
comes earlier in the input than every element of the list it is inserted
into, so it is placed before all elements of equal distance. -/
noncomputable def insertRanked (p : IdDist) : List IdDist → List IdDist
  | [] => [p]
  | q :: qs => if q.dist < p.dist then q :: insertRanked p qs else p :: q :: qs

/-- Stable ascending sort by `dist`.  ECMAScript requires
`Array.prototype.sort` to be stable, and a stable sort by a total preorder
has a unique result, realized here by stable insertion sort. -/
noncomputable def sortByDist : List IdDist → List IdDist
  | [] => []
  | p :: ps => insertRanked p (sortByDist ps)

/-- getVoterPreference (votingMethods.ts lines 74-85): map every candidate
to `{id, dist}` and sort ascending by distance. -/
noncomputable def getVoterPreference (voterX voterY : ℝ)
    (candidates : List Candidate) : List IdDist :=
  sortByDist (candidates.map fun c =>
    ⟨c.id, distance voterX voterY c.x c.y⟩)

/-- Pair production of getPairwisePreferences (votingMethods.ts lines 29-33):
the nested loops emit `(l[i], l[j])` for every `i < j`. -/
def pairsList : List String → List (String × String)
  | [] => []
  | x :: xs => (xs.map fun y => (x, y)) ++ pairsList xs

/-- getPairwisePreferences (votingMethods.ts lines 24-36): all ordered pairs
`(prefs[i].id, prefs[j].id)` with `i < j` of the voter's ranking. -/
noncomputable def getPairwisePreferences (voterX voterY : ℝ)
    (candidates : List Candidate) : List (String × String) :=
  pairsList ((getVoterPreference voterX voterY candidates).map IdDist.id)

/-- Defeats map of findSmithSet (votingMethods.ts lines 40-48) read as a
function: a key exists for every candidate id (the initialization loop), and
`defeats.get(winner)?.add(loser)` records exactly the pairs whose winner is
an initialized key. -/
def defeatsOf (candidates : List Candidate)
    (pairs : List (String × String)) (c : String) : List String :=
  if c ∈ candidates.map Candidate.id then
    (pairs.filter fun pr => pr.1 = c).map Prod.snd
  else []

/-- Insertion into a JavaScript `Set`: ignored when the element is already
present, appended at the end otherwise (insertion-order iteration). -/
def setInsert (s : List String) (x : String) : List String :=
  if x ∈ s then s else s ++ [x]

/-- Construction of `new Set(candidates.map(c => c.id))` (votingMethods.ts
line 51): deduplicate keeping first occurrences, in insertion order. -/
def jsSet (l : List String) : List String :=
  l.foldl setInsert []

/-- One pass of the while-loop of findSmithSet (votingMethods.ts lines
54-69): scan the set in iteration order and return the first candidate `c`
for which some other member `o` defeats `c` while `c` does not defeat `o`;
the loop breaks after deleting it. -/
def smithStep (defeats : String → List String) (s : List String) :
    Option String :=
  s.find? fun c =>
    s.any fun o => (o != c) && !((defeats c).contains o) &&
      ((defeats o).contains c)

/-- The while-loop of findSmithSet: repeatedly delete the candidate found by
`smithStep` until a full pass makes no change. -/
def smithLoop (defeats : String → List String) (s : List String) :
    List String :=
  match h : smithStep defeats s with
  | none => s
  | some c => smithLoop defeats (s.erase c)
termination_by s.length
decreasing_by
  have hc : c ∈ s := List.mem_of_find?_eq_some h
  have h1 : (s.erase c).length = s.length - 1 := List.length_erase_of_mem hc
  have h2 : 0 < s.length := List.length_pos_of_mem hc
  omega

/-- findSmithSet (votingMethods.ts lines 38-72). -/
noncomputable def findSmithSet (voterX voterY : ℝ)
    (candidates : List Candidate) : List String :=
  smithLoop
    (defeatsOf candidates (getPairwisePreferences voterX voterY candidates))
    (jsSet (candidates.map Candidate.id))

/-- JavaScript `Map.set` / `Record` property assignment on an association
list: update the value in place when the key exists (keeping its position),
append at the end otherwise. -/
def mapSet {α : Type} : List (String × α) → String → α → List (String × α)
  | [], k, v => [(k, v)]
  | (k1, v1) :: rest, k, v =>
    if k1 = k then (k, v) :: rest else (k1, v1) :: mapSet rest k v

/-- One insertion step of the stable descending-by-points sort used to model
`sort((a, b) => b[1] - a[1])` in the borda method. -/
def insertDesc (p : String × ℕ) : List (String × ℕ) → List (String × ℕ)
  | [] => [p]
  | q :: qs => if p.2 < q.2 then q :: insertDesc p qs else p :: q :: qs

/-- Stable descending sort by the second component. -/
def sortPointsDesc : List (String × ℕ) → List (String × ℕ)
  | [] => []
  | p :: ps => insertDesc p (sortPointsDesc ps)

namespace votingMethods

/-- votingMethods.plurality (votingMethods.ts lines 89-91):
`[getVoterPreference(...)[0].id]`; on an empty candidate list the index
access yields `undefined` and reading `.id` raises a `TypeError`. -/
noncomputable def plurality (voterX voterY : ℝ)
    (candidates : List Candidate) : Except JsError (List String) :=
  match getVoterPreference voterX voterY candidates with
  | [] => .error .typeError
  | p :: _ => .ok [p.id]

/-- votingMethods.approval (votingMethods.ts lines 93-97): ids of all
candidates with `dist <= approvalThreshold`, and `[prefs[0].id]` when that
filter is empty. -/
noncomputable def approval (voterX voterY : ℝ) (candidates : List Candidate)
    (approvalThreshold : ℝ) : Except JsError (List String) :=
  let prefs := getVoterPreference voterX voterY candidates
  let approvedCandidates := prefs.filter fun p => p.dist ≤ approvalThreshold
  if approvedCandidates.length > 0 then
    .ok (approvedCandidates.map IdDist.id)
  else
    match prefs with
    | [] => .error .typeError
    | p :: _ => .ok [p.id]

/-- Points map built by votingMethods.borda (votingMethods.ts lines 99-105):
`points.set(p.id, candidates.length - 1 - i)` for the rank-`i` entry of the
voter's preference list. -/
noncomputable def bordaPoints (voterX voterY : ℝ)
    (candidates : List Candidate) : List (String × ℕ) :=
  ((getVoterPreference voterX voterY candidates).enum).foldl
    (fun m ip => mapSet m ip.2.id (candidates.length - 1 - ip.1)) []

/-- votingMethods.borda (votingMethods.ts lines 99-110): entries of the
points map sorted descending by points, mapped to ids. -/
noncomputable def borda (voterX voterY : ℝ) (candidates : List Candidate) :
    Except JsError (List String) :=
  .ok ((sortPointsDesc (bordaPoints voterX voterY candidates)).map Prod.fst)

/-- votingMethods.irv (votingMethods.ts lines 112-114): the full ranking as
an id list. -/
noncomputable def irv (voterX voterY : ℝ) (candidates : List Candidate) :
    Except JsError (List String) :=
  .ok ((getVoterPreference voterX voterY candidates).map IdDist.id)

/-- votingMethods.smithApproval (votingMethods.ts lines 116-123): restrict
the candidate list to the Smith set and run approval there (the source gives
`approvalThreshold` the default value 0.3). -/
noncomputable def smithApproval (voterX voterY : ℝ)
    (candidates : List Candidate) (approvalThreshold : ℝ) :
    Except JsError (List String) :=
  let smithSet := findSmithSet voterX voterY candidates
  let smithCandidates := candidates.filter fun c => smithSet.contains c.id
  approval voterX voterY smithCandidates approvalThreshold

end votingMethods

/-- Method tag of runElection (ElectionUtils.ts line 19):
`type VotingMethod = 'plurality' | 'approval' | 'irv'`. -/
inductive VotingMethod where
  | plurality
  | approval
  | irv
deriving DecidableEq

/-- The `'plurality'` case of runElection (ElectionUtils.ts lines 37-46):
weight every candidate with `getWeight(distance(...), VOTER_RADIUS)` and
take `reduce((a, b) => a.weight > b.weight ? a : b)`; `reduce` on an empty
array would raise a `TypeError` (unreachable, since the caller handles empty
lists first).  The `'approval'` case falls back to this by the recursive
call `runElection('plurality', ...)`. -/
noncomputable def runPlurality (voterX voterY : ℝ)
    (candidates : List Candidate) : Except JsError String :=
  match candidates.map (fun c =>
      (c.id, getWeight (distance voterX voterY c.x c.y) VOTER_RADIUS)) with
  | [] => .error .typeError
  | w :: ws => .ok (ws.foldl (fun a b => if a.2 > b.2 then a else b) w).1

/-- runElection (ElectionUtils.ts lines 21-86).  The source gives
`approvalThreshold` the default value `DEFAULT_APPROVAL_THRESHOLD`; the
model always passes it explicitly.  The recursive fallback
`runElection('plurality', ...)` of the `'approval'` case is the shared
helper `runPlurality`, which is also the body of the `'plurality'` case. -/
noncomputable def runElection (method : VotingMethod) (voterX voterY : ℝ)
    (candidates : List Candidate) (approvalThreshold : ℝ) :
    Except JsError String :=
  match candidates with
  | [] => .error .invalidInput
  | [c] => .ok c.id
  | _ :: _ :: _ =>
    match method with
    | .plurality => runPlurality voterX voterY candidates
    | .approval =>
      let votes := candidates.foldl (fun m c =>
        let dist := distance voterX voterY c.x c.y
        mapSet m c.id
          (if dist ≤ approvalThreshold then getWeight dist approvalThreshold
           else 0)) []
      let approvedCandidates := votes.filter fun kv => kv.2 > 0
      match approvedCandidates with
      | [] => runPlurality voterX voterY candidates
      | a :: rest =>
        .ok (rest.foldl (fun a b => if b.2 > a.2 then b else a) a).1
    | .irv =>
      match sortByDist (candidates.map fun c =>
          ⟨c.id, distance voterX voterY c.x c.y⟩) with
      | [] => .error .typeError
      | r :: _ => .ok r.id

/-- `votes[winnerId]++` of simulateElection (ElectionUtils.ts line 100) on
an association list.  A missing key would read `undefined` and store `NaN`;
`none` stands for `NaN`, so incrementing it stays `none` and an absent key
is appended holding `none`. -/
def incrVote : List (String × Option ℕ) → String → List (String × Option ℕ)
  | [], k => [(k, none)]
  | (k1, v) :: rest, k =>
    if k1 = k then (k1, v.map (· + 1)) :: rest
    else (k1, v) :: incrVote rest k

/-- simulateElection (ElectionUtils.ts lines 89-104): initialize every
candidate's tally to 0, then run one election per voter and increment the
winner's tally.  An error thrown by `runElection` propagates out. -/
noncomputable def simulateElection (method : VotingMethod)
    (voters : List (ℝ × ℝ)) (candidates : List Candidate)
    (approvalThreshold : ℝ) : Except JsError (List (String × Option ℕ)) :=
  let votes0 := candidates.foldl (fun m c => mapSet m c.id (some 0)) []
  voters.foldlM (fun votes voter => do
    let winnerId ← runElection method voter.1 voter.2 candidates
      approvalThreshold
    pure (incrVote votes winnerId)) votes0

/-- Number of voters in `voters` whose single-voter election returns the
winner id `cid`; specification vocabulary for the tally invariant of
simulateElection. -/
noncomputable def winnersCount (method : VotingMethod)
    (voters : List (ℝ × ℝ)) (candidates : List Candidate)
    (approvalThreshold : ℝ) (cid : String) : ℕ :=
  match voters with
  | [] => 0
  | v :: vs =>
    (match runElection method v.1 v.2 candidates approvalThreshold with
     | .ok w => if w = cid then 1 else 0
     | .error _ => 0) +
    winnersCount method vs candidates approvalThreshold cid

/-! ## Basic lemmas -/

theorem smithLoop_of_none (d : String → List String) (s : List String)
    (h : smithStep d s = none) : smithLoop d s = s := by
  unfold smithLoop
  split
  · rfl
  · rename_i c hc
    rw [h] at hc
    exact absurd hc (by simp)

theorem smithLoop_of_some (d : String → List String) (s : List String)
    (c : String) (h : smithStep d s = some c) :
    smithLoop d s = smithLoop d (s.erase c) := by
  conv_lhs => unfold smithLoop
  split
  · rename_i hn
    rw [h] at hn
    exact absurd hn (by simp)
  · rename_i c' hc
    rw [h] at hc
    cases hc
    rfl

theorem getVoterPreference_singleton (voterX voterY : ℝ) (X : Candidate) :
    getVoterPreference voterX voterY [X] =
      [⟨X.id, distance voterX voterY X.x X.y⟩] := rfl

theorem insertRanked_perm (p : IdDist) (l : List IdDist) :
    List.Perm (insertRanked p l) (p :: l) := by
  induction l with
  | nil => exact List.Perm.refl _
  | cons q qs ih =>
    unfold insertRanked
    by_cases h : q.dist < p.dist
    · rw [if_pos h]
      exact (ih.cons q).trans (List.Perm.swap p q qs)
    · rw [if_neg h]

theorem sortByDist_perm (l : List IdDist) : List.Perm (sortByDist l) l := by
  induction l with
  | nil => exact List.Perm.refl _
  | cons p ps ih =>
    exact (insertRanked_perm p (sortByDist ps)).trans (ih.cons p)

/-- The head of the stable ascending sort is the earliest element of the
input attaining the minimal distance: the input splits as
`l1 ++ h :: l2` with every element of `l1` strictly farther than `h` and
`h` at most every element of `l`. -/
theorem sortByDist_head (l : List IdDist) (h : IdDist) (t : List IdDist)
    (hs : sortByDist l = h :: t) :
    ∃ l1 l2, l = l1 ++ h :: l2 ∧ (∀ q ∈ l1, h.dist < q.dist) ∧
      ∀ q ∈ l, h.dist ≤ q.dist := by
  induction l generalizing h t with
  | nil => simp [sortByDist] at hs
  | cons p ps ih =>
    rw [sortByDist] at hs
    cases hps : sortByDist ps with
    | nil =>
      rw [hps] at hs
      unfold insertRanked at hs
      injection hs with hs1 _
      subst hs1
      have hnil : ps = [] := by
        have hperm := sortByDist_perm ps
        rw [hps] at hperm
        exact hperm.symm.eq_nil
      subst hnil
      exact ⟨[], [], rfl, by simp, by simp⟩
    | cons h' t' =>
      rw [hps] at hs
      unfold insertRanked at hs
      obtain ⟨l1, l2, hdec, hlt, hle⟩ := ih h' t' hps
      by_cases hcmp : h'.dist < p.dist
      · rw [if_pos hcmp] at hs
        injection hs with hs1 _
        subst hs1
        refine ⟨p :: l1, l2, by rw [hdec]; rfl, ?_, ?_⟩
        · intro q hq
          rcases List.mem_cons.mp hq with hq | hq
          · exact hq ▸ hcmp
          · exact hlt q hq
        · intro q hq
          rcases List.mem_cons.mp hq with hq | hq
          · exact hq ▸ le_of_lt hcmp
          · exact hle q hq
      · rw [if_neg hcmp] at hs
        injection hs with hs1 _
        subst hs1
        refine ⟨[], ps, rfl, by simp, ?_⟩
        intro q hq
        rcases List.mem_cons.mp hq with hq | hq
        · exact hq ▸ le_refl _
        · exact le_trans (not_lt.mp hcmp) (hle q hq)

/-! ## C4: the weight at half the radius -/

/-- C4 (amended): for every `radius > 0`, the cosine falloff at half the
radius is exactly `0.5` (since `cos (π / 2) = 0`), not approximately
`0.75` as the claim states. -/
theorem C4_weight_at_half_radius (radius : ℝ) (h : 0 < radius) :
    getWeight (radius / 2) radius = 1 / 2 := by
  unfold getWeight
  rw [if_neg (by simp only [ge_iff_le, not_le]; linarith)]
  have hr : radius ≠ 0 := ne_of_gt h
  have harg : Real.pi * (radius / 2) / radius = Real.pi / 2 := by
    field_simp
    ring
  rw [harg, Real.cos_pi_div_two]
  norm_num

/-- C4 witness: the amended statement instantiated at `radius = 1`. -/
theorem C4_weight_at_half_radius_witness :
    (0:ℝ) < 1 ∧ getWeight ((1:ℝ) / 2) 1 = 1 / 2 :=
  ⟨by norm_num, C4_weight_at_half_radius 1 (by norm_num)⟩

/-- C4 counterexample: at `radius = 1` the weight at half the radius is
`1/2`, which is not within `0.005` (the repository test's `toBeCloseTo`
tolerance for two digits) of the claimed `0.75`. -/
theorem C4_counterexample :
    getWeight ((1:ℝ) / 2) 1 = 1 / 2 ∧
      ¬ |getWeight ((1:ℝ) / 2) 1 - 0.75| < 0.005 := by
  have h : getWeight ((1:ℝ) / 2) 1 = 1 / 2 := by
    unfold getWeight
    rw [if_neg (by norm_num)]
    rw [show Real.pi * (1 / 2) / 1 = Real.pi / 2 by ring, Real.cos_pi_div_two]
    norm_num
  refine ⟨h, ?_⟩
  rw [h, show (1:ℝ) / 2 - 0.75 = -(1/4) by norm_num, abs_neg,
    abs_of_nonneg (by norm_num)]
  norm_num

theorem getVoterPreference_length (voterX voterY : ℝ)
    (candidates : List Candidate) :
    (getVoterPreference voterX voterY candidates).length =
      candidates.length := by
  unfold getVoterPreference
  rw [(sortByDist_perm _).length_eq, List.length_map]

/-! ## C1: plurality returns the nearest candidate -/

/-- C1 (amended, for `votingMethods.plurality`): the returned id is that of
the first element of the distance ranking, namely the earliest candidate in
input order among those at minimal distance, and no error is raised.
`runElection`'s `'plurality'` branch does not satisfy the claim: it
maximizes the cosine weight with radius `VOTER_RADIUS` and its `reduce`
keeps the later element on weight ties (see the counterexample). -/
theorem C1_plurality_nearest (voterX voterY : ℝ)
    (candidates : List Candidate) (h2 : 2 ≤ candidates.length) :
    ∃ c cs1 cs2, candidates = cs1 ++ c :: cs2 ∧
      votingMethods.plurality voterX voterY candidates = .ok [c.id] ∧
      (∀ c' ∈ candidates,
        distance voterX voterY c.x c.y ≤
          distance voterX voterY c'.x c'.y) ∧
      (∀ c' ∈ cs1,
        distance voterX voterY c.x c.y <
          distance voterX voterY c'.x c'.y) := by
  cases hgp : getVoterPreference voterX voterY candidates with
  | nil =>
    exfalso
    have hlen := getVoterPreference_length voterX voterY candidates
    rw [hgp] at hlen
    simp at hlen
    omega
  | cons h t =>
    obtain ⟨l1, l2, hdec, hlt, hle⟩ := sortByDist_head _ h t hgp
    rw [List.map_eq_append_iff] at hdec
    obtain ⟨s1, s2, hcs, hm1, hm2⟩ := hdec
    rw [List.map_eq_cons_iff] at hm2
    obtain ⟨c, cs2, hs2, hfc, hm2'⟩ := hm2
    refine ⟨c, s1, cs2, by rw [hcs, hs2], ?_, ?_, ?_⟩
    · unfold votingMethods.plurality
      rw [hgp]
      show Except.ok [h.id] = Except.ok [c.id]
      rw [show h.id = c.id by rw [← hfc]]
    · intro c' hc'
      have hmem : (⟨c'.id, distance voterX voterY c'.x c'.y⟩ : IdDist) ∈
          candidates.map
            (fun c => (⟨c.id, distance voterX voterY c.x c.y⟩ : IdDist)) :=
        List.mem_map.mpr ⟨c', hc', rfl⟩
      have := hle _ hmem
      rw [← hfc] at this
      exact this
    · intro c' hc'
      have hmem : (⟨c'.id, distance voterX voterY c'.x c'.y⟩ : IdDist) ∈
          l1 := by
        rw [← hm1]
        exact List.mem_map.mpr ⟨c', hc', rfl⟩
      have := hlt _ hmem
      rw [← hfc] at this
      exact this

/-- C1 witness: the amended statement instantiated at the spec's symmetric
two-candidate configuration. -/
theorem C1_plurality_nearest_witness :
    2 ≤ ([⟨"1", 0, 0, "g", "A"⟩, ⟨"2", 1, 1, "r", "B"⟩] :
        List Candidate).length ∧
    ∃ c cs1 cs2,
      ([⟨"1", 0, 0, "g", "A"⟩, ⟨"2", 1, 1, "r", "B"⟩] : List Candidate) =
        cs1 ++ c :: cs2 ∧
      votingMethods.plurality (1/2) (1/2)
        [⟨"1", 0, 0, "g", "A"⟩, ⟨"2", 1, 1, "r", "B"⟩] = .ok [c.id] ∧
      (∀ c' ∈ ([⟨"1", 0, 0, "g", "A"⟩, ⟨"2", 1, 1, "r", "B"⟩] :
          List Candidate),
        distance (1/2) (1/2) c.x c.y ≤ distance (1/2) (1/2) c'.x c'.y) ∧
      (∀ c' ∈ cs1,
        distance (1/2) (1/2) c.x c.y < distance (1/2) (1/2) c'.x c'.y) :=
  ⟨by simp, C1_plurality_nearest (1/2) (1/2) _ (by simp)⟩

/-- C1 counterexample: at the spec's own tie scenario (candidates at (0,0)
and (1,1), voter at (0.5, 0.5), both exactly equidistant), `runElection`'s
`'plurality'` branch returns the id "2" of the *second* candidate, not the
first-in-input "1" the claim requires. -/
theorem C1_counterexample :
    runElection .plurality (1/2) (1/2)
      [⟨"1", 0, 0, "g", "A"⟩, ⟨"2", 1, 1, "r", "B"⟩]
      DEFAULT_APPROVAL_THRESHOLD = .ok "2" ∧
    distance (1/2) (1/2) 0 0 = distance (1/2) (1/2) 1 1 := by
  have hd1 : distance (1/2) (1/2) 0 0 = Real.sqrt (1/2) := by
    unfold distance
    norm_num
  have hd2 : distance (1/2) (1/2) 1 1 = Real.sqrt (1/2) := by
    unfold distance
    norm_num
  have hge : (0.15 : ℝ) ≤ Real.sqrt (1/2) := by
    rw [show (0.15:ℝ) = Real.sqrt (0.15 ^ 2) from
      (Real.sqrt_sq (by norm_num)).symm]
    exact Real.sqrt_le_sqrt (by norm_num)
  have hw1 : getWeight (distance (1/2) (1/2) 0 0) VOTER_RADIUS = 0 := by
    unfold getWeight VOTER_RADIUS
    rw [hd1, if_pos (by exact_mod_cast hge)]
  have hw2 : getWeight (distance (1/2) (1/2) 1 1) VOTER_RADIUS = 0 := by
    unfold getWeight VOTER_RADIUS
    rw [hd2, if_pos (by exact_mod_cast hge)]
  constructor
  · show runPlurality (1/2) (1/2)
      [⟨"1", 0, 0, "g", "A"⟩, ⟨"2", 1, 1, "r", "B"⟩] = .ok "2"
    unfold runPlurality
    simp only [List.map_cons, List.map_nil]
    rw [hw1, hw2]
    simp
  · rw [hd1, hd2]

/-! ## C3: approval fallback when nothing is within threshold -/

/-- C3 (amended, for `votingMethods.approval`): when no candidate lies
within the approval threshold, the method returns exactly what
`votingMethods.plurality` returns (the closest candidate), not an empty
result.  `runElection`'s `'approval'` branch instead falls back to its
weight-based plurality with radius `VOTER_RADIUS`, which can return a
candidate that is not the closest (see the counterexample). -/
theorem C3_approval_fallback (voterX voterY t : ℝ)
    (candidates : List Candidate) (hne : candidates ≠ [])
    (hfar : ∀ c ∈ candidates, ¬ distance voterX voterY c.x c.y ≤ t) :
    votingMethods.approval voterX voterY candidates t =
      votingMethods.plurality voterX voterY candidates := by
  have hfilter : ((getVoterPreference voterX voterY candidates).filter
      fun p => p.dist ≤ t) = [] := by
    rw [List.filter_eq_nil_iff]
    intro p hp
    have hmem : p ∈ candidates.map
        (fun c => (⟨c.id, distance voterX voterY c.x c.y⟩ : IdDist)) :=
      (sortByDist_perm _).mem_iff.mp hp
    obtain ⟨c, hc, rfl⟩ := List.mem_map.mp hmem
    simpa using hfar c hc
  unfold votingMethods.approval votingMethods.plurality
  simp only [hfilter, List.length_nil, gt_iff_lt, lt_irrefl, if_false]

/-- C3 witness: the amended statement instantiated at the spec's fallback
example (three candidates, threshold 0.05, voter far from all three). -/
theorem C3_approval_fallback_witness :
    (([⟨"1", 0, 0, "g", "A"⟩, ⟨"2", 1, 0, "r", "B"⟩,
        ⟨"3", 1/2, 0, "b", "C"⟩] : List Candidate) ≠ [] ∧
      ∀ c ∈ ([⟨"1", 0, 0, "g", "A"⟩, ⟨"2", 1, 0, "r", "B"⟩,
        ⟨"3", 1/2, 0, "b", "C"⟩] : List Candidate),
        ¬ distance (1/2) (1/2) c.x c.y ≤ (1/20 : ℝ)) ∧
    votingMethods.approval (1/2) (1/2)
      [⟨"1", 0, 0, "g", "A"⟩, ⟨"2", 1, 0, "r", "B"⟩,
        ⟨"3", 1/2, 0, "b", "C"⟩] (1/20) =
      votingMethods.plurality (1/2) (1/2)
        [⟨"1", 0, 0, "g", "A"⟩, ⟨"2", 1, 0, "r", "B"⟩,
          ⟨"3", 1/2, 0, "b", "C"⟩] := by
  have hfar : ∀ c ∈ ([⟨"1", 0, 0, "g", "A"⟩, ⟨"2", 1, 0, "r", "B"⟩,
      ⟨"3", 1/2, 0, "b", "C"⟩] : List Candidate),
      ¬ distance (1/2) (1/2) c.x c.y ≤ (1/20 : ℝ) := by
    intro c hc
    have hbound : ∀ a b : ℝ, (1/20 : ℝ) < Real.sqrt a → Real.sqrt a = b →
        ¬ b ≤ (1/20 : ℝ) := by
      intro a b h1 h2
      rw [← h2]
      exact not_le.mpr h1
    fin_cases hc <;>
      · unfold distance
        rw [not_le]
        calc (1/20 : ℝ) = Real.sqrt ((1/20)^2) :=
              (Real.sqrt_sq (by norm_num)).symm
          _ < _ := Real.sqrt_lt_sqrt (by norm_num) (by norm_num)
  exact ⟨⟨by simp, hfar⟩,
    C3_approval_fallback (1/2) (1/2) (1/20) _ (by simp) hfar⟩

/-- C3 counterexample: voter at (0.5, 0.5), candidates "1" at (0.5, 0.1)
(distance 0.4) and "2" at (0.5, 1) (distance 0.5), threshold 0.1: no
candidate is within the threshold, and `runElection`'s `'approval'` branch
returns "2", the *farther* candidate, because its plurality fallback
assigns both candidates cosine weight 0 and its `reduce` keeps the later
element. -/
theorem C3_counterexample :
    runElection .approval (1/2) (1/2)
      [⟨"1", 1/2, 1/10, "g", "A"⟩, ⟨"2", 1/2, 1, "r", "B"⟩] (1/10) =
      .ok "2" ∧
    distance (1/2) (1/2) (1/2) (1/10) < distance (1/2) (1/2) (1/2) 1 := by
  have hd1 : distance (1/2) (1/2) (1/2) (1/10) = 2/5 := by
    unfold distance
    rw [show ((1/2:ℝ) - 1/2)^2 + ((1/10:ℝ) - 1/2)^2 = (2/5)^2 by norm_num]
    exact Real.sqrt_sq (by norm_num)
  have hd2 : distance (1/2) (1/2) (1/2) 1 = 1/2 := by
    unfold distance
    rw [show ((1/2:ℝ) - 1/2)^2 + ((1:ℝ) - 1/2)^2 = (1/2)^2 by norm_num]
    exact Real.sqrt_sq (by norm_num)
  have hc1 : ¬ ((2/5 : ℝ) ≤ 1/10) := by norm_num
  have hc2 : ¬ ((1/2 : ℝ) ≤ 1/10) := by norm_num
  have hw1 : getWeight (2/5) VOTER_RADIUS = 0 := by
    unfold getWeight VOTER_RADIUS
    rw [if_pos (by norm_num : (2/5:ℝ) ≥ 0.15)]
  have hw2 : getWeight (1/2) VOTER_RADIUS = 0 := by
    unfold getWeight VOTER_RADIUS
    rw [if_pos (by norm_num : (1/2:ℝ) ≥ 0.15)]
  constructor
  · unfold runElection runPlurality
    simp only [hd1, hd2, List.map_cons, List.map_nil, List.foldl_cons,
      List.foldl_nil, if_neg hc1, if_neg hc2, hw1, hw2, mapSet]
    rw [if_neg (by decide : ¬ ("1" : String) = "2")]
    simp [List.filter]
  · rw [hd1, hd2]
    norm_num

/-! ## C7: Borda points -/

theorem mapSet_of_fresh_key {α : Type} (m : List (String × α)) (k : String)
    (v : α) (hk : k ∉ m.map Prod.fst) : mapSet m k v = m ++ [(k, v)] := by
  induction m with
  | nil => rfl
  | cons kv rest ih =>
    obtain ⟨k1, v1⟩ := kv
    simp only [List.map_cons, List.mem_cons, not_or] at hk
    unfold mapSet
    rw [if_neg fun h => hk.1 h.symm, ih hk.2]
    rfl

/-- Folding `Map.set` over entries whose keys are pairwise distinct and
fresh for the accumulator appends them in order. -/
theorem foldl_mapSet_fresh {α β : Type} (key : β → String) (val : β → α)
    (L : List β) (acc : List (String × α))
    (hdisj : ∀ b ∈ L, key b ∉ acc.map Prod.fst)
    (hnd : (L.map key).Nodup) :
    L.foldl (fun m b => mapSet m (key b) (val b)) acc =
      acc ++ L.map (fun b => (key b, val b)) := by
  induction L generalizing acc with
  | nil => simp
  | cons b bs ih =>
    simp only [List.map_cons, List.nodup_cons] at hnd
    simp only [List.foldl_cons]
    rw [mapSet_of_fresh_key acc (key b) (val b) (hdisj b (by simp))]
    rw [ih (acc ++ [(key b, val b)]) ?_ hnd.2]
    · simp
    · intro b' hb'
      simp only [List.map_append, List.mem_append, List.map_cons,
        List.map_nil, List.mem_singleton, not_or]
      refine ⟨hdisj b' (by simp [hb']), ?_⟩
      intro heq
      exact hnd.1 (heq ▸ List.mem_map_of_mem key hb')

theorem two_mul_sum_range_pred_sub (n : ℕ) :
    2 * (((List.range n).map fun i => n - 1 - i).sum) = n * (n - 1) := by
  induction n with
  | zero => simp
  | succ m ih =>
    rw [List.range_succ_eq_map]
    simp only [List.map_cons, List.map_map, List.sum_cons]
    have hf : ((fun i => m + 1 - 1 - i) ∘ Nat.succ) = fun i => m - 1 - i := by
      funext i
      simp only [Function.comp_apply]
      omega
    rw [hf]
    have h1 : m + 1 - 1 - 0 = m := by omega
    rw [h1, Nat.mul_add, ih, Nat.add_sub_cancel]
    cases m with
    | zero => rfl
    | succ k =>
      rw [Nat.succ_sub_one]
      ring

theorem getVoterPreference_ids_nodup (voterX voterY : ℝ)
    (candidates : List Candidate)
    (hnd : (candidates.map Candidate.id).Nodup) :
    ((getVoterPreference voterX voterY candidates).map IdDist.id).Nodup := by
  have hperm : List.Perm
      ((getVoterPreference voterX voterY candidates).map IdDist.id)
      ((candidates.map fun c =>
        (⟨c.id, distance voterX voterY c.x c.y⟩ : IdDist)).map IdDist.id) :=
    (sortByDist_perm _).map IdDist.id
  rw [hperm.nodup_iff, List.map_map]
  exact hnd

/-- C7: for a non-empty candidate list with unique ids, the Borda points
map holds, for the rank-`i` entry of the distance ranking, exactly
`n - 1 - i` points, and the values sum to `n * (n - 1) / 2`. -/
theorem C7_borda_points (voterX voterY : ℝ) (candidates : List Candidate)
    (hne : candidates ≠ [])
    (hnd : (candidates.map Candidate.id).Nodup) :
    votingMethods.bordaPoints voterX voterY candidates =
      (getVoterPreference voterX voterY candidates).enum.map
        (fun ip => (ip.2.id, candidates.length - 1 - ip.1)) ∧
    ((votingMethods.bordaPoints voterX voterY candidates).map
        Prod.snd).sum =
      candidates.length * (candidates.length - 1) / 2 := by
  have hkeys : ((getVoterPreference voterX voterY candidates).enum.map
      fun ip => ip.2.id).Nodup := by
    have h1 : ((getVoterPreference voterX voterY candidates).enum.map
        fun (ip : ℕ × IdDist) => ip.2.id) =
        ((getVoterPreference voterX voterY candidates).enum.map
          Prod.snd).map IdDist.id := by
      rw [List.map_map]
      rfl
    rw [h1, List.enum_map_snd]
    exact getVoterPreference_ids_nodup voterX voterY candidates hnd
  have heq : votingMethods.bordaPoints voterX voterY candidates =
      (getVoterPreference voterX voterY candidates).enum.map
        (fun ip => (ip.2.id, candidates.length - 1 - ip.1)) := by
    unfold votingMethods.bordaPoints
    rw [foldl_mapSet_fresh (fun ip : ℕ × IdDist => ip.2.id)
      (fun ip : ℕ × IdDist => candidates.length - 1 - ip.1)
      ((getVoterPreference voterX voterY candidates).enum) [] (by simp)
      hkeys]
    rfl
  refine ⟨heq, ?_⟩
  rw [heq, List.map_map]
  have h2 : ((getVoterPreference voterX voterY candidates).enum.map
      (Prod.snd ∘ fun ip => (ip.2.id, candidates.length - 1 - ip.1))) =
      ((getVoterPreference voterX voterY candidates).enum.map
        Prod.fst).map (fun i => candidates.length - 1 - i) := by
    rw [List.map_map]
    rfl
  rw [h2, List.enum_map_fst, getVoterPreference_length]
  have := two_mul_sum_range_pred_sub candidates.length
  omega

/-- C7 witness: the Borda points statement instantiated at a concrete
two-candidate configuration. -/
theorem C7_borda_points_witness :
    (([⟨"1", 0, 0, "g", "A"⟩, ⟨"2", 1, 1, "r", "B"⟩] :
        List Candidate) ≠ [] ∧
      (([⟨"1", 0, 0, "g", "A"⟩, ⟨"2", 1, 1, "r", "B"⟩] :
        List Candidate).map Candidate.id).Nodup) ∧
    ((votingMethods.bordaPoints 0 0
        [⟨"1", 0, 0, "g", "A"⟩, ⟨"2", 1, 1, "r", "B"⟩]).map
          Prod.snd).sum = 1 := by
  refine ⟨⟨by simp, by simp⟩, ?_⟩
  have h := (C7_borda_points 0 0
    [⟨"1", 0, 0, "g", "A"⟩, ⟨"2", 1, 1, "r", "B"⟩] (by simp) (by simp)).2
  simpa using h

/-! ## Smith set machinery -/

theorem mem_pairsList (l : List String) (a b : String) :
    (a, b) ∈ pairsList l ↔ [a, b].Sublist l := by
  induction l with
  | nil =>
    simp only [pairsList, List.not_mem_nil, false_iff]
    intro h
    exact absurd (h.subset (by simp)) (List.not_mem_nil a)
  | cons x xs ih =>
    simp only [pairsList, List.mem_append, List.mem_map]
    constructor
    · rintro (⟨y, hy, heq⟩ | h)
      · injection heq with h1 h2
        subst h1
        subst h2
        exact (List.cons_sublist_cons).mpr (List.singleton_sublist.mpr hy)
      · exact (ih.mp h).cons x
    · intro h
      cases h with
      | cons _ h' =>
        right
        exact ih.mpr h'
      | cons₂ _ h' =>
        left
        exact ⟨b, List.singleton_sublist.mp h', rfl⟩

theorem not_pair_sublist_head (h0 : String) (t : List String)
    (hnd : (h0 :: t).Nodup) (o : String) : ¬ [o, h0].Sublist (h0 :: t) := by
  intro h
  have hh0 : h0 ∉ t := (List.nodup_cons.mp hnd).1
  cases h with
  | cons _ h' =>
    exact hh0 (h'.subset (by simp))
  | cons₂ _ h' =>
    exact hh0 (List.singleton_sublist.mp h')

theorem pair_sublist_of_mem_tail (h0 : String) (t : List String)
    (c : String) (hc : c ∈ t) : [h0, c].Sublist (h0 :: t) :=
  (List.cons_sublist_cons).mpr (List.singleton_sublist.mpr hc)

theorem mem_defeatsOf (candidates : List Candidate)
    (pairs : List (String × String)) (c o : String) :
    o ∈ defeatsOf candidates pairs c ↔
      c ∈ candidates.map Candidate.id ∧ (c, o) ∈ pairs := by
  unfold defeatsOf
  by_cases h : c ∈ candidates.map Candidate.id
  · rw [if_pos h]
    simp only [List.mem_map, List.mem_filter, h, true_and]
    constructor
    · rintro ⟨pr, ⟨hmem, hfil⟩, rfl⟩
      have : pr.1 = c := by simpa using hfil
      rwa [show (c, pr.2) = pr by rw [← this]]
    · intro hco
      exact ⟨(c, o), ⟨hco, by simp⟩, rfl⟩
  · rw [if_neg h]
    simp [h]

theorem smithLoop_ne_nil (defeats : String → List String)
    (s : List String) (hne : s ≠ []) : smithLoop defeats s ≠ [] := by
  suffices h : ∀ n s, s.length = n → s ≠ [] → smithLoop defeats s ≠ [] from
    h s.length s rfl hne
  intro n
  induction n using Nat.strong_induction_on with
  | _ n ih =>
    intro s hlen hsne
    cases hstep : smithStep defeats s with
    | none => rw [smithLoop_of_none _ _ hstep]; exact hsne
    | some c =>
      rw [smithLoop_of_some _ _ _ hstep]
      have hcs : c ∈ s := List.mem_of_find?_eq_some hstep
      have hpred := List.find?_some hstep
      simp only [List.any_eq_true, Bool.and_eq_true, bne_iff_ne,
        Bool.not_eq_true'] at hpred
      obtain ⟨o, ho, ⟨honc, _⟩, _⟩ := hpred
      have hone : o ∈ s.erase c := (List.mem_erase_of_ne honc).mpr ho
      refine ih (s.erase c).length ?_ (s.erase c) rfl
        (List.ne_nil_of_mem hone)
      rw [List.length_erase_of_mem hcs]
      have := List.length_pos_of_mem hcs
      omega

theorem smithLoop_subset (defeats : String → List String)
    (s : List String) : ∀ x ∈ smithLoop defeats s, x ∈ s := by
  suffices h : ∀ n s, s.length = n → ∀ x ∈ smithLoop defeats s, x ∈ s from
    h s.length s rfl
  intro n
  induction n using Nat.strong_induction_on with
  | _ n ih =>
    intro s hlen
    cases hstep : smithStep defeats s with
    | none =>
      rw [smithLoop_of_none _ _ hstep]
      exact fun x hx => hx
    | some c =>
      rw [smithLoop_of_some _ _ _ hstep]
      have hcs : c ∈ s := List.mem_of_find?_eq_some hstep
      intro x hx
      refine List.mem_of_mem_erase (ih (s.erase c).length ?_
        (s.erase c) rfl x hx)
      rw [List.length_erase_of_mem hcs]
      have := List.length_pos_of_mem hcs
      omega

theorem foldl_setInsert_fresh (l : List String) :
    ∀ acc, (∀ x ∈ l, x ∉ acc) → l.Nodup →
      l.foldl setInsert acc = acc ++ l := by
  induction l with
  | nil =>
    intro acc _ _
    simp
  | cons x xs ih =>
    intro acc hfresh hnd
    simp only [List.foldl_cons]
    have hx : setInsert acc x = acc ++ [x] := by
      unfold setInsert
      rw [if_neg (hfresh x (by simp))]
    rw [hx, ih (acc ++ [x]) ?_ (List.nodup_cons.mp hnd).2]
    · simp
    · intro y hy
      simp only [List.mem_append, List.mem_singleton, not_or]
      refine ⟨hfresh y (by simp [hy]), ?_⟩
      intro heq
      exact (List.nodup_cons.mp hnd).1 (heq ▸ hy)

theorem jsSet_of_nodup (l : List String) (hnd : l.Nodup) : jsSet l = l := by
  have h := foldl_setInsert_fresh l [] (by simp) hnd
  simpa [jsSet] using h

theorem getVoterPreference_ids_perm (voterX voterY : ℝ)
    (candidates : List Candidate) :
    List.Perm ((getVoterPreference voterX voterY candidates).map IdDist.id)
      (candidates.map Candidate.id) := by
  have h := (sortByDist_perm (candidates.map fun c =>
    (⟨c.id, distance voterX voterY c.x c.y⟩ : IdDist))).map IdDist.id
  rw [List.map_map] at h
  exact h

theorem contains_eq_true_iff (l : List String) (a : String) :
    l.contains a = true ↔ a ∈ l := List.elem_iff

theorem contains_eq_false_iff (l : List String) (a : String) :
    l.contains a = false ↔ a ∉ l := by
  rw [← contains_eq_true_iff]
  simp

theorem eq_singleton_of_all_eq (s : List String) (h0 : String)
    (hmem : h0 ∈ s) (hnd : s.Nodup) (hall : ∀ x ∈ s, x = h0) :
    s = [h0] := by
  cases s with
  | nil => cases hmem
  | cons x xs =>
    have hx : x = h0 := hall x (by simp)
    subst hx
    cases xs with
    | nil => rfl
    | cons y ys =>
      exfalso
      have hy : y = x := hall y (by simp)
      have hxin : x ∈ y :: ys := by
        rw [hy]
        exact List.mem_cons_self x ys
      exact (List.nodup_cons.mp hnd).1 hxin

/-- With the defeats relation of a single-voter total order `h0 :: t`
(closer beats farther, no back-edges), the while-loop of findSmithSet
collapses every starting set containing `h0` down to `[h0]`. -/
theorem smithLoop_singleton (defeats : String → List String)
    (h0 : String) (t : List String) (hnd : (h0 :: t).Nodup)
    (hdef : ∀ a b : String,
      b ∈ defeats a ↔ a ∈ h0 :: t ∧ [a, b].Sublist (h0 :: t)) :
    ∀ n s, s.length = n → s.Nodup → (∀ x ∈ s, x ∈ h0 :: t) → h0 ∈ s →
      smithLoop defeats s = [h0] := by
  have hno : ∀ o, h0 ∉ defeats o := by
    intro o hmem
    exact not_pair_sublist_head h0 t hnd o ((hdef o h0).mp hmem).2
  have hbeats : ∀ c, c ∈ h0 :: t → c ≠ h0 → c ∈ defeats h0 := by
    intro c hc hcne
    refine (hdef h0 c).mpr ⟨by simp, ?_⟩
    refine pair_sublist_of_mem_tail h0 t c ?_
    rcases List.mem_cons.mp hc with h | h
    · exact absurd h hcne
    · exact h
  intro n
  induction n using Nat.strong_induction_on with
  | _ n ih =>
    intro s hlen hsnd hsub h0s
    cases hstep : smithStep defeats s with
    | none =>
      rw [smithLoop_of_none _ _ hstep]
      refine eq_singleton_of_all_eq s h0 h0s hsnd ?_
      intro x hx
      by_contra hxne
      have hfalse := List.find?_eq_none.mp hstep x hx
      apply hfalse
      simp only [List.any_eq_true, Bool.and_eq_true, bne_iff_ne,
        Bool.not_eq_true', contains_eq_true_iff, contains_eq_false_iff]
      exact ⟨h0, h0s, ⟨fun heq => hxne heq.symm, hno x⟩,
        hbeats x (hsub x hx) hxne⟩
    | some c =>
      have hcs : c ∈ s := List.mem_of_find?_eq_some hstep
      have hpred := List.find?_some hstep
      simp only [List.any_eq_true, Bool.and_eq_true, bne_iff_ne,
        Bool.not_eq_true', contains_eq_true_iff, contains_eq_false_iff]
        at hpred
      have hcne : c ≠ h0 := by
        intro heq
        subst heq
        obtain ⟨o, _, _, hcon⟩ := hpred
        exact hno o hcon
      rw [smithLoop_of_some _ _ _ hstep]
      refine ih (s.erase c).length ?_ (s.erase c) rfl (hsnd.erase c)
        (fun x hx => hsub x (List.mem_of_mem_erase hx))
        ((List.mem_erase_of_ne hcne.symm).mpr h0s)
      rw [List.length_erase_of_mem hcs]
      have := List.length_pos_of_mem hcs
      omega

/-- Under unique ids, the single-voter Smith set of findSmithSet is exactly
the singleton holding the head of the distance ranking. -/
theorem findSmithSet_eq (voterX voterY : ℝ) (candidates : List Candidate)
    (hne : candidates ≠ []) (hnd : (candidates.map Candidate.id).Nodup) :
    ∃ p pt, getVoterPreference voterX voterY candidates = p :: pt ∧
      findSmithSet voterX voterY candidates = [p.id] := by
  cases hgp : getVoterPreference voterX voterY candidates with
  | nil =>
    exfalso
    have hlen := getVoterPreference_length voterX voterY candidates
    rw [hgp] at hlen
    have h0 : candidates.length = 0 := by simpa using hlen.symm
    exact hne (List.length_eq_zero.mp h0)
  | cons p pt =>
    refine ⟨p, pt, rfl, ?_⟩
    unfold findSmithSet
    rw [jsSet_of_nodup _ hnd]
    have hperm := getVoterPreference_ids_perm voterX voterY candidates
    rw [hgp] at hperm
    simp only [List.map_cons] at hperm
    have hrnd : (p.id :: pt.map IdDist.id).Nodup :=
      hperm.nodup_iff.mpr hnd
    have hpairs : getPairwisePreferences voterX voterY candidates =
        pairsList (p.id :: pt.map IdDist.id) := by
      unfold getPairwisePreferences
      rw [hgp]
      rfl
    have hdef : ∀ a b : String,
        b ∈ defeatsOf candidates
          (getPairwisePreferences voterX voterY candidates) a ↔
        a ∈ p.id :: pt.map IdDist.id ∧
          [a, b].Sublist (p.id :: pt.map IdDist.id) := by
      intro a b
      rw [mem_defeatsOf, hpairs, mem_pairsList, hperm.symm.mem_iff]
    exact smithLoop_singleton _ p.id (pt.map IdDist.id) hrnd hdef
      (candidates.map Candidate.id).length _ rfl hnd
      (fun x hx => hperm.symm.mem_iff.mp hx)
      (hperm.mem_iff.mp (by simp))

/-! ## C5 and C6: Smith set properties -/

/-- C5: for a non-empty candidate list with unique ids, the computed Smith
set is non-empty, contains the head of the distance ranking (the nearest
candidate, under the stable tie-break), and no candidate outside the set
defeats every candidate inside it. -/
theorem C5_smith_set (voterX voterY : ℝ) (candidates : List Candidate)
    (hne : candidates ≠ [])
    (hnd : (candidates.map Candidate.id).Nodup) :
    findSmithSet voterX voterY candidates ≠ [] ∧
    (∃ p pt, getVoterPreference voterX voterY candidates = p :: pt ∧
      p.id ∈ findSmithSet voterX voterY candidates ∧
      ∀ q ∈ getVoterPreference voterX voterY candidates,
        p.dist ≤ q.dist) ∧
    (∀ o ∈ candidates.map Candidate.id,
      o ∉ findSmithSet voterX voterY candidates →
      ¬ ∀ c ∈ findSmithSet voterX voterY candidates,
          c ∈ defeatsOf candidates
            (getPairwisePreferences voterX voterY candidates) o) := by
  obtain ⟨p, pt, hgp, hsmith⟩ :=
    findSmithSet_eq voterX voterY candidates hne hnd
  have hperm := getVoterPreference_ids_perm voterX voterY candidates
  rw [hgp] at hperm
  simp only [List.map_cons] at hperm
  have hrnd : (p.id :: pt.map IdDist.id).Nodup := hperm.nodup_iff.mpr hnd
  refine ⟨by rw [hsmith]; simp, ⟨p, pt, hgp, by rw [hsmith]; simp, ?_⟩, ?_⟩
  · intro q hq
    have hgp' : sortByDist (candidates.map fun c =>
        (⟨c.id, distance voterX voterY c.x c.y⟩ : IdDist)) = p :: pt := hgp
    obtain ⟨l1, l2, _, _, hle⟩ := sortByDist_head _ p pt hgp'
    exact hle q ((sortByDist_perm _).subset hq)
  · intro o _ honot hall
    rw [hsmith] at honot hall
    have hdefeat := hall p.id (by simp)
    rw [mem_defeatsOf] at hdefeat
    have hpair : (o, p.id) ∈
        pairsList (p.id :: pt.map IdDist.id) := by
      have h1 := hdefeat.2
      unfold getPairwisePreferences at h1
      rw [hgp] at h1
      exact h1
    exact not_pair_sublist_head p.id (pt.map IdDist.id) hrnd o
      ((mem_pairsList _ o p.id).mp hpair)

/-- C5 witness: the Smith-set statement instantiated at a concrete
two-candidate configuration. -/
theorem C5_smith_set_witness :
    (([⟨"1", 0, 0, "g", "A"⟩, ⟨"2", 1, 1, "r", "B"⟩] :
        List Candidate) ≠ [] ∧
      (([⟨"1", 0, 0, "g", "A"⟩, ⟨"2", 1, 1, "r", "B"⟩] :
        List Candidate).map Candidate.id).Nodup) ∧
    findSmithSet 0 0 [⟨"1", 0, 0, "g", "A"⟩, ⟨"2", 1, 1, "r", "B"⟩] ≠ [] :=
  ⟨⟨by simp, by simp⟩,
    (C5_smith_set 0 0 [⟨"1", 0, 0, "g", "A"⟩, ⟨"2", 1, 1, "r", "B"⟩]
      (by simp) (by simp)).1⟩

theorem filter_by_unique_id (candidates : List Candidate)
    (hnd : (candidates.map Candidate.id).Nodup) (c0 : Candidate)
    (hc0 : c0 ∈ candidates) :
    (candidates.filter fun c => ([c0.id]).contains c.id) = [c0] := by
  induction candidates with
  | nil => cases hc0
  | cons x xs ih =>
    simp only [List.map_cons, List.nodup_cons] at hnd
    rcases List.mem_cons.mp hc0 with heq | hmem
    · subst heq
      rw [List.filter_cons_of_pos (by simp)]
      have hrest : (xs.filter fun c => ([c0.id]).contains c.id) = [] := by
        rw [List.filter_eq_nil_iff]
        intro c hc
        simp only [contains_eq_true_iff, List.mem_singleton]
        intro heq
        exact hnd.1 (heq ▸ List.mem_map_of_mem Candidate.id hc)
      rw [hrest]
    · have hxne : ¬ (([c0.id]).contains x.id = true) := by
        simp only [contains_eq_true_iff, List.mem_singleton]
        intro heq
        apply hnd.1
        rw [heq]
        exact List.mem_map_of_mem Candidate.id hmem
      rw [List.filter_cons_of_neg (by simpa using hxne)]
      exact ih hnd.2 hmem

/-- C6: for a non-empty candidate list with unique ids, the per-voter Smith
set is exactly the singleton of the ranking head, and smithApproval returns
exactly votingMethods.plurality's result for every threshold. -/
theorem C6_smithApproval_eq_plurality (voterX voterY t : ℝ)
    (candidates : List Candidate) (hne : candidates ≠ [])
    (hnd : (candidates.map Candidate.id).Nodup) :
    (∃ p pt, getVoterPreference voterX voterY candidates = p :: pt ∧
      findSmithSet voterX voterY candidates = [p.id]) ∧
    votingMethods.smithApproval voterX voterY candidates t =
      votingMethods.plurality voterX voterY candidates := by
  obtain ⟨p, pt, hgp, hsmith⟩ :=
    findSmithSet_eq voterX voterY candidates hne hnd
  refine ⟨⟨p, pt, hgp, hsmith⟩, ?_⟩
  have hp_mem0 : p ∈ getVoterPreference voterX voterY candidates := by
    rw [hgp]
    exact List.mem_cons_self p pt
  have hp_mem : p ∈ candidates.map
      (fun c => (⟨c.id, distance voterX voterY c.x c.y⟩ : IdDist)) :=
    (sortByDist_perm _).subset hp_mem0
  obtain ⟨c0, hc0, hfc0⟩ := List.mem_map.mp hp_mem
  have hid : p.id = c0.id := by rw [← hfc0]
  have happrove : votingMethods.approval voterX voterY [c0] t =
      .ok [c0.id] := by
    unfold votingMethods.approval
    rw [getVoterPreference_singleton]
    by_cases hd : distance voterX voterY c0.x c0.y ≤ t
    · simp [hd]
    · simp [hd]
  have hplur : votingMethods.plurality voterX voterY candidates =
      .ok [p.id] := by
    unfold votingMethods.plurality
    rw [hgp]
  show votingMethods.approval voterX voterY
    (candidates.filter fun c =>
      (findSmithSet voterX voterY candidates).contains c.id) t =
    votingMethods.plurality voterX voterY candidates
  rw [hsmith, hid, filter_by_unique_id candidates hnd c0 hc0, happrove,
    hplur, hid]

/-- C6 witness: the smithApproval-equals-plurality statement instantiated
at a concrete two-candidate configuration and threshold. -/
theorem C6_smithApproval_eq_plurality_witness :
    (([⟨"1", 0, 0, "g", "A"⟩, ⟨"2", 1, 1, "r", "B"⟩] :
        List Candidate) ≠ [] ∧
      (([⟨"1", 0, 0, "g", "A"⟩, ⟨"2", 1, 1, "r", "B"⟩] :
        List Candidate).map Candidate.id).Nodup) ∧
    votingMethods.smithApproval (1/2) (1/2)
      [⟨"1", 0, 0, "g", "A"⟩, ⟨"2", 1, 1, "r", "B"⟩] (3/10) =
      votingMethods.plurality (1/2) (1/2)
        [⟨"1", 0, 0, "g", "A"⟩, ⟨"2", 1, 1, "r", "B"⟩] :=
  ⟨⟨by simp, by simp⟩,
    (C6_smithApproval_eq_plurality (1/2) (1/2) (3/10)
      [⟨"1", 0, 0, "g", "A"⟩, ⟨"2", 1, 1, "r", "B"⟩]
      (by simp) (by simp)).2⟩

/-! ## Error behavior and winner membership -/

theorem runElection_plurality_eq (voterX voterY t : ℝ) (c1 c2 : Candidate)
    (cs : List Candidate) :
    runElection .plurality voterX voterY (c1 :: c2 :: cs) t =
      runPlurality voterX voterY (c1 :: c2 :: cs) := rfl

theorem runElection_approval_eq (voterX voterY t : ℝ) (c1 c2 : Candidate)
    (cs : List Candidate) :
    runElection .approval voterX voterY (c1 :: c2 :: cs) t =
      match ((c1 :: c2 :: cs).foldl (fun m c =>
          mapSet m c.id
            (if distance voterX voterY c.x c.y ≤ t then
              getWeight (distance voterX voterY c.x c.y) t
             else 0)) []).filter (fun kv => kv.2 > 0) with
      | [] => runPlurality voterX voterY (c1 :: c2 :: cs)
      | a :: rest =>
        .ok (rest.foldl (fun a b => if b.2 > a.2 then b else a) a).1 := rfl

theorem runElection_irv_eq (voterX voterY t : ℝ) (c1 c2 : Candidate)
    (cs : List Candidate) :
    runElection .irv voterX voterY (c1 :: c2 :: cs) t =
      match sortByDist ((c1 :: c2 :: cs).map fun c =>
          ⟨c.id, distance voterX voterY c.x c.y⟩) with
      | [] => .error .typeError
      | r :: _ => .ok r.id := rfl

theorem foldl_choice_mem {α : Type} (f : α → α → α)
    (hf : ∀ a b, f a b = a ∨ f a b = b) (x : α) (l : List α) :
    l.foldl f x ∈ x :: l := by
  induction l generalizing x with
  | nil => simp
  | cons b bs ih =>
    simp only [List.foldl_cons]
    rcases List.mem_cons.mp (ih (f x b)) with h | h
    · rcases hf x b with h2 | h2
      · rw [h, h2]
        exact List.mem_cons_self _ _
      · rw [h, h2]
        exact List.mem_cons_of_mem _ (List.mem_cons_self _ _)
    · exact List.mem_cons_of_mem _ (List.mem_cons_of_mem _ h)

theorem runPlurality_ok (voterX voterY : ℝ) (candidates : List Candidate)
    (hne : candidates ≠ []) :
    ∃ w, runPlurality voterX voterY candidates = .ok w ∧
      w ∈ candidates.map Candidate.id := by
  cases candidates with
  | nil => exact absurd rfl hne
  | cons c cs =>
    unfold runPlurality
    simp only [List.map_cons]
    refine ⟨_, rfl, ?_⟩
    have hmem := foldl_choice_mem
      (fun a b : String × ℝ => if a.2 > b.2 then a else b)
      (fun a b => by
        by_cases h : a.2 > b.2
        · exact Or.inl (if_pos h)
        · exact Or.inr (if_neg h))
      (c.id, getWeight (distance voterX voterY c.x c.y) VOTER_RADIUS)
      (cs.map fun c =>
        (c.id, getWeight (distance voterX voterY c.x c.y) VOTER_RADIUS))
    have hmem2 : (List.foldl (fun a b => if a.2 > b.2 then a else b)
        (c.id, getWeight (distance voterX voterY c.x c.y) VOTER_RADIUS)
        (cs.map fun c =>
          (c.id, getWeight (distance voterX voterY c.x c.y) VOTER_RADIUS)))
        ∈ (c :: cs).map (fun c =>
          (c.id, getWeight (distance voterX voterY c.x c.y) VOTER_RADIUS)) := by
      simpa using hmem
    obtain ⟨c', hc', heq⟩ := List.mem_map.mp hmem2
    rw [← heq]
    exact List.mem_map_of_mem Candidate.id hc'

theorem keys_mapSet {α : Type} (m : List (String × α)) (k : String) (v : α)
    (x : String) (h : x ∈ (mapSet m k v).map Prod.fst) :
    x ∈ m.map Prod.fst ∨ x = k := by
  induction m with
  | nil =>
    right
    simpa [mapSet] using h
  | cons kv rest ih =>
    obtain ⟨k1, v1⟩ := kv
    unfold mapSet at h
    by_cases heq : k1 = k
    · rw [if_pos heq] at h
      simp only [List.map_cons, List.mem_cons] at h ⊢
      rcases h with h | h
      · exact Or.inr h
      · exact Or.inl (Or.inr h)
    · rw [if_neg heq] at h
      simp only [List.map_cons, List.mem_cons] at h ⊢
      rcases h with h | h
      · exact Or.inl (Or.inl h)
      · rcases ih h with h1 | h1
        · exact Or.inl (Or.inr h1)
        · exact Or.inr h1

theorem keys_foldl_mapSet {α β : Type} (key : β → String) (val : β → α)
    (L : List β) : ∀ acc x,
      x ∈ (L.foldl (fun m b => mapSet m (key b) (val b)) acc).map Prod.fst →
      x ∈ acc.map Prod.fst ∨ x ∈ L.map key := by
  induction L with
  | nil =>
    intro acc x h
    exact Or.inl h
  | cons b bs ih =>
    intro acc x h
    simp only [List.foldl_cons] at h
    rcases ih (mapSet acc (key b) (val b)) x h with h1 | h1
    · rcases keys_mapSet acc (key b) (val b) x h1 with h2 | h2
      · exact Or.inl h2
      · right
        rw [h2]
        exact List.mem_cons_self _ _
    · right
      exact List.mem_cons_of_mem _ h1

theorem runElection_ok_mem (method : VotingMethod) (voterX voterY t : ℝ)
    (candidates : List Candidate) (hne : candidates ≠ []) :
    ∃ w, runElection method voterX voterY candidates t = .ok w ∧
      w ∈ candidates.map Candidate.id := by
  cases candidates with
  | nil => exact absurd rfl hne
  | cons c cs =>
    cases cs with
    | nil => exact ⟨c.id, rfl, by simp⟩
    | cons c2 cs2 =>
      cases method with
      | plurality =>
        obtain ⟨w, hw, hmem⟩ :=
          runPlurality_ok voterX voterY (c :: c2 :: cs2) (by simp)
        exact ⟨w, (runElection_plurality_eq voterX voterY t c c2 cs2) ▸ hw,
          hmem⟩
      | approval =>
        rw [runElection_approval_eq]
        cases happr : ((c :: c2 :: cs2).foldl (fun m c =>
            mapSet m c.id
              (if distance voterX voterY c.x c.y ≤ t then
                getWeight (distance voterX voterY c.x c.y) t
               else 0)) []).filter (fun kv => kv.2 > 0) with
        | nil =>
          obtain ⟨w, hw, hmem⟩ :=
            runPlurality_ok voterX voterY (c :: c2 :: cs2) (by simp)
          exact ⟨w, hw, hmem⟩
        | cons a rest =>
          refine ⟨(rest.foldl (fun a b => if b.2 > a.2 then b else a) a).1,
            rfl, ?_⟩
          have hsel := foldl_choice_mem
            (fun a b : String × ℝ => if b.2 > a.2 then b else a)
            (fun a b => by
              by_cases h : b.2 > a.2
              · exact Or.inr (if_pos h)
              · exact Or.inl (if_neg h)) a rest
          have hin_filter :
              (rest.foldl (fun a b => if b.2 > a.2 then b else a) a) ∈
              ((c :: c2 :: cs2).foldl (fun m c =>
                mapSet m c.id
                  (if distance voterX voterY c.x c.y ≤ t then
                    getWeight (distance voterX voterY c.x c.y) t
                   else 0)) []).filter (fun kv => kv.2 > 0) := by
            rw [happr]
            exact hsel
          have hin_votes := List.mem_of_mem_filter hin_filter
          have hkey := keys_foldl_mapSet Candidate.id
            (fun c => if distance voterX voterY c.x c.y ≤ t then
              getWeight (distance voterX voterY c.x c.y) t else 0)
            (c :: c2 :: cs2) []
            (rest.foldl (fun a b => if b.2 > a.2 then b else a) a).1
            (List.mem_map_of_mem Prod.fst hin_votes)
          rcases hkey with h | h
          · simp at h
          · exact h
      | irv =>
        rw [runElection_irv_eq]
        cases hs : sortByDist ((c :: c2 :: cs2).map fun cc =>
            ⟨cc.id, distance voterX voterY cc.x cc.y⟩) with
        | nil =>
          exfalso
          have hlen := (sortByDist_perm ((c :: c2 :: cs2).map fun cc =>
            (⟨cc.id, distance voterX voterY cc.x cc.y⟩ : IdDist))).length_eq
          rw [hs] at hlen
          simp at hlen
        | cons r rs =>
          refine ⟨r.id, rfl, ?_⟩
          have hrmem : r ∈ (c :: c2 :: cs2).map (fun cc =>
              (⟨cc.id, distance voterX voterY cc.x cc.y⟩ : IdDist)) := by
            refine (sortByDist_perm _).subset ?_
            rw [hs]
            exact List.mem_cons_self r rs
          obtain ⟨c', hc', heq⟩ := List.mem_map.mp hrmem
          rw [← heq]
          exact List.mem_map_of_mem Candidate.id hc'

theorem votingMethods_plurality_ok (voterX voterY : ℝ)
    (candidates : List Candidate) (hne : candidates ≠ []) :
    ∃ w, votingMethods.plurality voterX voterY candidates = .ok w := by
  cases hgp : getVoterPreference voterX voterY candidates with
  | nil =>
    exfalso
    have hlen := getVoterPreference_length voterX voterY candidates
    rw [hgp] at hlen
    have h0 : candidates.length = 0 := by simpa using hlen.symm
    exact hne (List.length_eq_zero.mp h0)
  | cons p pt =>
    refine ⟨[p.id], ?_⟩
    unfold votingMethods.plurality
    rw [hgp]

theorem votingMethods_approval_ok (voterX voterY t : ℝ)
    (candidates : List Candidate) (hne : candidates ≠ []) :
    ∃ w, votingMethods.approval voterX voterY candidates t = .ok w := by
  cases hgp : getVoterPreference voterX voterY candidates with
  | nil =>
    exfalso
    have hlen := getVoterPreference_length voterX voterY candidates
    rw [hgp] at hlen
    have h0 : candidates.length = 0 := by simpa using hlen.symm
    exact hne (List.length_eq_zero.mp h0)
  | cons p pt =>
    unfold votingMethods.approval
    rw [hgp]
    by_cases h : ((p :: pt).filter fun q => q.dist ≤ t).length > 0
    · rw [if_pos h]
      exact ⟨_, rfl⟩
    · rw [if_neg h]
      exact ⟨[p.id], rfl⟩

theorem foldl_setInsert_ne_nil (l : List String) :
    ∀ acc, acc ≠ [] → l.foldl setInsert acc ≠ [] := by
  induction l with
  | nil =>
    intro acc h
    simpa using h
  | cons x xs ih =>
    intro acc h
    simp only [List.foldl_cons]
    apply ih
    unfold setInsert
    by_cases hx : x ∈ acc
    · rw [if_pos hx]
      exact h
    · rw [if_neg hx]
      simp

theorem jsSet_ne_nil (l : List String) (hne : l ≠ []) : jsSet l ≠ [] := by
  cases l with
  | nil => exact absurd rfl hne
  | cons y ys =>
    unfold jsSet
    simp only [List.foldl_cons]
    apply foldl_setInsert_ne_nil
    unfold setInsert
    simp

theorem mem_foldl_setInsert (l : List String) :
    ∀ acc x, x ∈ l.foldl setInsert acc → x ∈ acc ∨ x ∈ l := by
  induction l with
  | nil =>
    intro acc x h
    exact Or.inl h
  | cons y ys ih =>
    intro acc x h
    simp only [List.foldl_cons] at h
    rcases ih (setInsert acc y) x h with h1 | h1
    · unfold setInsert at h1
      by_cases hy : y ∈ acc
      · rw [if_pos hy] at h1
        exact Or.inl h1
      · rw [if_neg hy] at h1
        rcases List.mem_append.mp h1 with h2 | h2
        · exact Or.inl h2
        · right
          simp only [List.mem_singleton] at h2
          simp [h2]
    · right
      exact List.mem_cons_of_mem _ h1

theorem votingMethods_smithApproval_ok (voterX voterY t : ℝ)
    (candidates : List Candidate) (hne : candidates ≠ []) :
    ∃ w, votingMethods.smithApproval voterX voterY candidates t = .ok w := by
  have hids : candidates.map Candidate.id ≠ [] := by
    cases candidates with
    | nil => exact absurd rfl hne
    | cons c cs => simp
  have hjs : jsSet (candidates.map Candidate.id) ≠ [] := jsSet_ne_nil _ hids
  have hsm : findSmithSet voterX voterY candidates ≠ [] :=
    smithLoop_ne_nil _ _ hjs
  obtain ⟨w, hw⟩ := List.exists_mem_of_ne_nil _ hsm
  have hw_ids : w ∈ candidates.map Candidate.id := by
    have h1 := smithLoop_subset _ _ w hw
    rcases mem_foldl_setInsert _ [] w h1 with h2 | h2
    · cases h2
    · exact h2
  obtain ⟨c0, hc0, hc0id⟩ := List.mem_map.mp hw_ids
  have hfil : c0 ∈ candidates.filter (fun c =>
      (findSmithSet voterX voterY candidates).contains c.id) := by
    rw [List.mem_filter]
    refine ⟨hc0, ?_⟩
    rw [contains_eq_true_iff, hc0id]
    exact hw
  exact votingMethods_approval_ok voterX voterY t _ (List.ne_nil_of_mem hfil)

/-! ## C2: empty-candidate behavior across the methods -/

/-- C2 (amended): `runElection` raises `InvalidInput` on the empty
candidate list for each of its three method names and returns without
error on every non-empty list.  The five `votingMethods` do not implement
the claimed check: on the empty list `borda` and `irv` return an empty
ranking without raising, while `plurality`, `approval` and `smithApproval`
fail with a JavaScript `TypeError` rather than `InvalidInput`; all five
return without error on every non-empty list. -/
theorem C2_empty_and_nonempty (voterX voterY t : ℝ) :
    (∀ method, runElection method voterX voterY [] t =
        .error .invalidInput) ∧
    (∀ method (candidates : List Candidate), candidates ≠ [] →
      ∃ w, runElection method voterX voterY candidates t = .ok w) ∧
    (votingMethods.borda voterX voterY [] = .ok [] ∧
      votingMethods.irv voterX voterY [] = .ok []) ∧
    (votingMethods.plurality voterX voterY [] = .error .typeError ∧
      votingMethods.approval voterX voterY [] t = .error .typeError ∧
      votingMethods.smithApproval voterX voterY [] t =
        .error .typeError) ∧
    (∀ candidates : List Candidate, candidates ≠ [] →
      (∃ w, votingMethods.plurality voterX voterY candidates = .ok w) ∧
      (∃ w, votingMethods.approval voterX voterY candidates t = .ok w) ∧
      (∃ w, votingMethods.borda voterX voterY candidates = .ok w) ∧
      (∃ w, votingMethods.irv voterX voterY candidates = .ok w) ∧
      (∃ w, votingMethods.smithApproval voterX voterY candidates t =
        .ok w)) := by
  refine ⟨fun method => rfl, ?_, ⟨rfl, rfl⟩, ⟨rfl, ?_, ?_⟩, ?_⟩
  · intro method candidates hne
    obtain ⟨w, hw, _⟩ :=
      runElection_ok_mem method voterX voterY t candidates hne
    exact ⟨w, hw⟩
  · rfl
  · have hsm : findSmithSet voterX voterY ([] : List Candidate) = [] := by
      unfold findSmithSet
      exact smithLoop_of_none _ _ rfl
    show votingMethods.approval voterX voterY
      (([] : List Candidate).filter fun c =>
        (findSmithSet voterX voterY []).contains c.id) t =
      .error .typeError
    rfl
  · intro candidates hne
    exact ⟨votingMethods_plurality_ok voterX voterY candidates hne,
      votingMethods_approval_ok voterX voterY t candidates hne,
      ⟨_, rfl⟩, ⟨_, rfl⟩,
      votingMethods_smithApproval_ok voterX voterY t candidates hne⟩

/-- C2 witness: the amended statement instantiated at concrete inputs. -/
theorem C2_empty_and_nonempty_witness :
    runElection .plurality 0 0 [] 1 = .error .invalidInput ∧
    (∃ w, runElection .approval 0 0
      [⟨"1", 0, 0, "g", "A"⟩, ⟨"2", 1, 1, "r", "B"⟩] 1 = .ok w) ∧
    votingMethods.borda 0 0 [] = .ok [] ∧
    votingMethods.plurality 0 0 [] = .error .typeError ∧
    (∃ w, votingMethods.smithApproval 0 0 [⟨"1", 0, 0, "g", "A"⟩] 1 =
      .ok w) := by
  have h := C2_empty_and_nonempty 0 0 1
  exact ⟨h.1 .plurality, h.2.1 .approval _ (by simp), h.2.2.1.1,
    h.2.2.2.1.1,
    (h.2.2.2.2 [⟨"1", 0, 0, "g", "A"⟩] (by simp)).2.2.2.2⟩

/-- C2 counterexample: votingMethods.borda called on the empty candidate
list returns an empty ranking and raises no error at all, contradicting
the claim that all five methods raise InvalidInput there. -/
theorem C2_counterexample :
    votingMethods.borda 0 0 [] = .ok [] := rfl

/-! ## C9: the tally invariant of simulateElection -/

theorem except_bind_ok {ε α β : Type} (a : α) (f : α → Except ε β) :
    ((Except.ok a : Except ε α) >>= f) = f a := rfl

theorem except_pure_bind {ε α β : Type} (a : α) (f : α → Except ε β) :
    ((pure a : Except ε α) >>= f) = f a := rfl

theorem simulateElection_eq (method : VotingMethod)
    (voters : List (ℝ × ℝ)) (candidates : List Candidate) (t : ℝ) :
    simulateElection method voters candidates t =
      List.foldlM (fun votes voter => do
        let winnerId ← runElection method voter.1 voter.2 candidates t
        pure (incrVote votes winnerId))
      (candidates.foldl (fun m c => mapSet m c.id (some 0)) [])
      voters := rfl

theorem incrVote_map (k : Candidate → ℕ) (w : String) :
    ∀ cs : List Candidate, (cs.map Candidate.id).Nodup →
      w ∈ cs.map Candidate.id →
      incrVote (cs.map fun c => (c.id, some (k c))) w =
        cs.map fun c => (c.id, some (k c + if c.id = w then 1 else 0)) := by
  intro cs
  induction cs with
  | nil =>
    intro _ h
    cases h
  | cons c cs ih =>
    intro hnd hw
    simp only [List.map_cons, List.nodup_cons] at hnd
    simp only [List.map_cons]
    unfold incrVote
    by_cases hc : c.id = w
    · rw [if_pos hc]
      congr 1
      · simp [hc]
      · apply List.map_congr_left
        intro c' hc'
        have hne : ¬ c'.id = w := by
          intro heq
          apply hnd.1
          rw [hc, ← heq]
          exact List.mem_map_of_mem Candidate.id hc'
        simp [hne]
    · rw [if_neg hc]
      congr 1
      · simp [hc]
      · apply ih hnd.2
        have hw' : w = c.id ∨ w ∈ cs.map Candidate.id := by
          rcases List.mem_map.mp hw with ⟨a, ha, hav⟩
          rcases List.mem_cons.mp ha with h | h
          · left
            rw [← hav, h]
          · right
            exact hav ▸ List.mem_map_of_mem Candidate.id h
        rcases hw' with heq | hmem
        · exact absurd heq.symm hc
        · exact hmem

theorem simulate_fold (method : VotingMethod) (candidates : List Candidate)
    (t : ℝ) (hne : candidates ≠ [])
    (hnd : (candidates.map Candidate.id).Nodup) :
    ∀ (voters : List (ℝ × ℝ)) (k : Candidate → ℕ),
      List.foldlM (fun votes voter => do
          let winnerId ← runElection method voter.1 voter.2 candidates t
          pure (incrVote votes winnerId))
        (candidates.map fun c => (c.id, some (k c))) voters =
      .ok (candidates.map fun c =>
        (c.id, some (k c +
          winnersCount method voters candidates t c.id))) := by
  intro voters
  induction voters with
  | nil =>
    intro k
    simp only [List.foldlM_nil, winnersCount]
    rfl
  | cons v vs ih =>
    intro k
    obtain ⟨w, hw, hmem⟩ :=
      runElection_ok_mem method v.1 v.2 t candidates hne
    rw [List.foldlM_cons, hw, except_bind_ok, except_pure_bind]
    rw [incrVote_map k w candidates hnd hmem,
      ih fun c => k c + if c.id = w then 1 else 0]
    congr 1
    apply List.map_congr_left
    intro c _
    congr 1
    congr 1
    have hcount : winnersCount method (v :: vs) candidates t c.id =
        (if w = c.id then 1 else 0) +
          winnersCount method vs candidates t c.id := by
      conv_lhs => rw [winnersCount]
      rw [hw]
    rw [hcount]
    by_cases hcw : c.id = w
    · simp only [hcw, if_pos rfl]
      omega
    · have hwc : ¬ w = c.id := fun h => hcw h.symm
      simp only [hcw, if_neg hwc, if_false]
      omega

theorem sum_map_add {β : Type} (f g : β → ℕ) (l : List β) :
    (l.map fun b => f b + g b).sum = (l.map f).sum + (l.map g).sum := by
  induction l with
  | nil => simp
  | cons b bs ih =>
    simp only [List.map_cons, List.sum_cons, ih]
    omega

theorem sum_indicator_one (candidates : List Candidate)
    (hnd : (candidates.map Candidate.id).Nodup) (w : String)
    (hw : w ∈ candidates.map Candidate.id) :
    (candidates.map fun c => if w = c.id then 1 else 0).sum = 1 := by
  induction candidates with
  | nil => cases hw
  | cons c cs ih =>
    simp only [List.map_cons, List.nodup_cons] at hnd
    simp only [List.map_cons, List.sum_cons]
    have hw' : w = c.id ∨ w ∈ cs.map Candidate.id := by
      rcases List.mem_map.mp hw with ⟨a, ha, hav⟩
      rcases List.mem_cons.mp ha with h | h
      · left
        rw [← hav, h]
      · right
        exact hav ▸ List.mem_map_of_mem Candidate.id h
    rcases hw' with heq | hmem
    · rw [if_pos heq]
      have hzero : (cs.map fun c' => if w = c'.id then 1 else 0).sum = 0 := by
        apply List.sum_eq_zero
        intro x hx
        obtain ⟨c', hc', hval⟩ := List.mem_map.mp hx
        have hnm : ¬ w = c'.id := by
          intro hww
          apply hnd.1
          have hcc : c.id = c'.id := by rw [← heq, hww]
          rw [hcc]
          exact List.mem_map_of_mem Candidate.id hc'
        rw [if_neg hnm] at hval
        exact hval.symm
      rw [hzero]
    · have hne : ¬ w = c.id := by
        intro hww
        apply hnd.1
        rw [← hww]
        exact hmem
      rw [if_neg hne, ih hnd.2 hmem]

theorem sum_winnersCount (method : VotingMethod)
    (candidates : List Candidate) (t : ℝ) (hne : candidates ≠ [])
    (hnd : (candidates.map Candidate.id).Nodup) :
    ∀ voters : List (ℝ × ℝ),
      (candidates.map fun c =>
        winnersCount method voters candidates t c.id).sum =
      voters.length := by
  intro voters
  induction voters with
  | nil =>
    simp [winnersCount]
  | cons v vs ih =>
    obtain ⟨w, hw, hmem⟩ :=
      runElection_ok_mem method v.1 v.2 t candidates hne
    have hstep : (candidates.map fun c =>
        winnersCount method (v :: vs) candidates t c.id) =
        candidates.map fun c => (if w = c.id then 1 else 0) +
          winnersCount method vs candidates t c.id := by
      apply List.map_congr_left
      intro c _
      conv_lhs => rw [winnersCount]
      rw [hw]
    rw [hstep, sum_map_add, sum_indicator_one candidates hnd w hmem, ih]
    simp only [List.length_cons]
    omega

/-- C9: for every method, every voter list (including the empty one) and
every non-empty candidate list with unique ids, simulateElection succeeds,
its tally has exactly the candidate ids as keys (in input order), every
candidate chosen by no voter is present with value 0, and the values sum
to the number of voters. -/
theorem C9_simulateElection_tally (method : VotingMethod)
    (voters : List (ℝ × ℝ)) (candidates : List Candidate) (t : ℝ)
    (hne : candidates ≠ [])
    (hnd : (candidates.map Candidate.id).Nodup) :
    ∃ tally, simulateElection method voters candidates t = .ok tally ∧
      tally = (candidates.map fun c =>
        (c.id, some (winnersCount method voters candidates t c.id))) ∧
      tally.map Prod.fst = candidates.map Candidate.id ∧
      (∀ c ∈ candidates,
        winnersCount method voters candidates t c.id = 0 →
        (c.id, some 0) ∈ tally) ∧
      (tally.map fun kv => kv.2.getD 0).sum = voters.length := by
  refine ⟨candidates.map fun c =>
    (c.id, some (winnersCount method voters candidates t c.id)),
    ?_, rfl, ?_, ?_, ?_⟩
  · have hinit : (candidates.foldl (fun m c => mapSet m c.id (some 0)) [])
        = candidates.map fun c => (c.id, some (0 : ℕ)) := by
      have h := foldl_mapSet_fresh Candidate.id
        (fun _ => (some (0 : ℕ) : Option ℕ)) candidates [] (by simp) hnd
      simpa using h
    rw [simulateElection_eq, hinit,
      simulate_fold method candidates t hne hnd voters fun _ => 0]
    simp
  · rw [List.map_map]
    rfl
  · intro c hc hcnt
    refine List.mem_map.mpr ⟨c, hc, ?_⟩
    rw [hcnt]
  · rw [List.map_map]
    have h1 : ((fun kv : String × Option ℕ => kv.2.getD 0) ∘
        fun c : Candidate =>
          (c.id, some (winnersCount method voters candidates t c.id))) =
        fun c => winnersCount method voters candidates t c.id := rfl
    rw [h1]
    exact sum_winnersCount method candidates t hne hnd voters

/-- C9 witness: the tally statement instantiated at a concrete election of
three voters over two candidates. -/
theorem C9_simulateElection_tally_witness :
    (([⟨"1", 0, 0, "g", "A"⟩, ⟨"2", 1, 1, "r", "B"⟩] :
        List Candidate) ≠ [] ∧
      (([⟨"1", 0, 0, "g", "A"⟩, ⟨"2", 1, 1, "r", "B"⟩] :
        List Candidate).map Candidate.id).Nodup) ∧
    ∃ tally, simulateElection .irv [(0, 0), (1, 1), (0, 0)]
        [⟨"1", 0, 0, "g", "A"⟩, ⟨"2", 1, 1, "r", "B"⟩] (3/10) =
        .ok tally ∧
      (tally.map fun kv => kv.2.getD 0).sum = 3 := by
  refine ⟨⟨by simp, by simp⟩, ?_⟩
  obtain ⟨tally, hok, _, _, _, hsum⟩ := C9_simulateElection_tally .irv
    [(0, 0), (1, 1), (0, 0)]
    [⟨"1", 0, 0, "g", "A"⟩, ⟨"2", 1, 1, "r", "B"⟩] (3/10)
    (by simp) (by simp)
  exact ⟨tally, hok, hsum⟩

/-! ## C8: single-candidate short-circuit -/

/-- C8: with a one-element candidate list `[X]`, all three `runElection`
methods return `X.id` and all five `votingMethods` return `[X.id]`, and no
error is raised. -/
theorem C8_single_candidate (voterX voterY t : ℝ) (X : Candidate) :
    runElection .plurality voterX voterY [X] t = .ok X.id ∧
    runElection .approval voterX voterY [X] t = .ok X.id ∧
    runElection .irv voterX voterY [X] t = .ok X.id ∧
    votingMethods.plurality voterX voterY [X] = .ok [X.id] ∧
    votingMethods.approval voterX voterY [X] t = .ok [X.id] ∧
    votingMethods.borda voterX voterY [X] = .ok [X.id] ∧
    votingMethods.irv voterX voterY [X] = .ok [X.id] ∧
    votingMethods.smithApproval voterX voterY [X] t = .ok [X.id] := by
  refine ⟨rfl, rfl, rfl, rfl, ?_, rfl, rfl, ?_⟩
  · unfold votingMethods.approval
    rw [getVoterPreference_singleton]
    by_cases hd : distance voterX voterY X.x X.y ≤ t
    · simp [hd]
    · simp [hd]
  · unfold votingMethods.smithApproval
    have hsmith : findSmithSet voterX voterY [X] = [X.id] := by
      unfold findSmithSet
      simp only [List.map_cons, List.map_nil]
      have hjs : jsSet [X.id] = [X.id] := by
        simp [jsSet, setInsert]
      rw [hjs]
      apply smithLoop_of_none
      unfold smithStep
      simp
    show votingMethods.approval voterX voterY
      ([X].filter fun c => (findSmithSet voterX voterY [X]).contains c.id) t =
        .ok [X.id]
    rw [hsmith]
    have hfilter : ([X].filter fun c => ([X.id]).contains c.id) = [X] := by
      simp
    rw [hfilter]
    unfold votingMethods.approval
    rw [getVoterPreference_singleton]
    by_cases hd : distance voterX voterY X.x X.y ≤ t
    · simp [hd]
    · simp [hd]

end VotingViz
